import Mathlib

/-
Verification of the topology-graph assembly engine of the stk repository
(`src/classes/topology/base.py`), against its natural-language specification.

The Python code is shallowly embedded: each method of `Topology`, `Vertex`
and `Edge` that the verified properties concern is translated into an
executable Lean definition.  External collaborators (rdkit molecules, the
`FGInfo` registry contents, euclidean coordinates of already-placed atoms)
are passed in as explicit parameters, so the theorems quantify over them.
Python floats used purely as sort keys are modelled by `ℚ`; real-valued
geometry (`edge_plane_normal`) is modelled over `ℝ`.
-/

namespace StkSpec

/-! ## Sorting of distance triples

`sorted(position.distances)` in Python sorts tuples
`(distance, atom1_id, atom2_id)` lexicographically, ascending.  We model the
distance by a rational and the two ids by naturals. -/

/-- A distance triple `(distance, id, id)` as accumulated in
`Vertex.distances` (`base.py`, lines 586-587) and in the scratch list of
`pair_heavy_ids_with_connected` (line 650). -/
abbrev Triple : Type := ℚ × ℕ × ℕ

/-- Lexicographic order on triples: Python tuple comparison, as used by
`sorted(position.distances)` and `distances.sort()`. -/
def tripleLE (t u : Triple) : Prop :=
  t.1 < u.1 ∨ (t.1 = u.1 ∧ (t.2.1 < u.2.1 ∨ (t.2.1 = u.2.1 ∧ t.2.2 ≤ u.2.2)))

instance : DecidableRel tripleLE := by
  intro t u
  unfold tripleLE
  infer_instance

/-- Python's `sorted` and `.sort()` on a list of triples: a stable ascending sort. -/
def sortTriples (l : List Triple) : List Triple :=
  List.insertionSort tripleLE l

/-! ## Embedding of `Topology.join_mols` (`base.py`, lines 573-602)

The method runs two loops over `self.positions_A`.  The first accumulates,
for every `(atom_id, vertex)` entry of `position.atom_position_pairs` and
every `atom2_id` of `vertex.heavy_ids`, the triple
`(distance, atom_id, atom2_id)` into `position.distances`.  The second loop
walks each position's `sorted(position.distances)` and, under one `paired`
set shared by all positions, adds a bond for each triple whose two atom ids
are both still unclaimed. -/

/-- The rdkit bond types produced by `determine_bond_type`. -/
inductive BondType : Type
  | SINGLE : BondType
  | DOUBLE : BondType
deriving DecidableEq

/-- The `join_mols`-relevant state of one `positions_A` site: its
`atom_position_pairs` (each paired neighbour represented by the neighbour's
`heavy_ids`, the only data `join_mols` reads from it) and its scratch
`distances` list. -/
structure JoinSite : Type where
  atom_position_pairs : List (ℕ × List ℕ)
  distances : List Triple
deriving DecidableEq

/-- First loop of `join_mols` for one site: append the triple
`(distance atom_id atom2_id, atom_id, atom2_id)` for every pair and every
neighbour heavy id, in loop order.  `d` abstracts
`macro_mol.atom_distance('heavy', ·, ·)`. -/
def siteDistances (d : ℕ → ℕ → ℚ) (s : JoinSite) : List Triple :=
  s.distances ++
    s.atom_position_pairs.flatMap
      (fun p => p.2.map (fun b => (d p.1 b, p.1, b)))

/-- All sites after the first loop of `join_mols`. -/
def joinMolsDistances (d : ℕ → ℕ → ℚ) (sites : List JoinSite) :
    List JoinSite :=
  sites.map (fun s => { s with distances := siteDistances d s })

/-- The mutable state of the second loop of `join_mols`: the `paired`
exclusivity set, the bonds added to the `EditableMol` (in insertion order,
with their bond type), and the `bonds_made` counter. -/
structure JoinState : Type where
  paired : Finset ℕ
  bonds : List (ℕ × ℕ × BondType)
  bonds_made : ℕ
deriving DecidableEq

/-- The state at entry to `join_mols` during a build: no atom paired, no
bond added, `bonds_made = 0` (set by `Topology.__init__`). -/
def initJoinState : JoinState :=
  { paired := ∅, bonds := [], bonds_made := 0 }

/-- Inner body of the second loop of `join_mols`: walk a list of triples;
skip a triple when either id is in `paired`, otherwise add the bond (with
the type given by `bt`, abstracting `determine_bond_type`), increment
`bonds_made` and claim both ids. -/
def processTriples (bt : ℕ → ℕ → BondType) :
    List Triple → JoinState → JoinState
  | [], st => st
  | (_, a1, a2) :: rest, st =>
      if a1 ∈ st.paired ∨ a2 ∈ st.paired then
        processTriples bt rest st
      else
        processTriples bt rest
          { paired := insert a1 (insert a2 st.paired),
            bonds := st.bonds ++ [(a1, a2, bt a1 a2)],
            bonds_made := st.bonds_made + 1 }

/-- Embedding of `Topology.join_mols`: first loop accumulates per-site distances, second
loop processes each site's own `sorted(position.distances)` in
`positions_A` order under one shared `paired` set. -/
def joinMols (bt : ℕ → ℕ → BondType) (d : ℕ → ℕ → ℚ)
    (sites : List JoinSite) (st : JoinState) : JoinState :=
  (joinMolsDistances d sites).foldl
    (fun acc s => processTriples bt (sortTriples s.distances) acc) st

/-- Modelled from the spec: the matching pass as the specification words it
("globally across all `positions_A` sites, sort ALL accumulated distance
triples ascending" and greedily accept).  Used only to compare against the
source-derived `joinMols`. -/
def joinMolsGlobalSort (bt : ℕ → ℕ → BondType) (d : ℕ → ℕ → ℚ)
    (sites : List JoinSite) (st : JoinState) : JoinState :=
  processTriples bt
    (sortTriples ((joinMolsDistances d sites).flatMap (fun s => s.distances)))
    st

/-! ## Embedding of `Topology.pair_heavy_ids_with_connected`
(`base.py`, lines 641-660)

Candidates `(distance, heavy_id, position)` over all combinations of the
vertex's `heavy_ids` and `connected` entries are collected in loop order,
sorted, and greedily accepted under two exclusivity sets `paired_ids` and
`paired_pos`.  Neighbouring positions (Python objects) are represented by
natural-number identifiers; `d` abstracts
`euclidean(macro_mol.atom_coords('heavy', heavy_id), position.coord)`. -/

/-- State of the greedy loop of `pair_heavy_ids_with_connected`. -/
structure PairState : Type where
  pairs : List (ℕ × ℕ)
  paired_ids : Finset ℕ
  paired_pos : Finset ℕ
deriving DecidableEq

/-- The greedy loop of `pair_heavy_ids_with_connected`: accept a candidate
`(heavy_id, pos)` only when neither key is claimed. -/
def pairLoop : List Triple → PairState → PairState
  | [], st => st
  | (_, h, p) :: rest, st =>
      if h ∈ st.paired_ids ∨ p ∈ st.paired_pos then
        pairLoop rest st
      else
        pairLoop rest
          { pairs := st.pairs ++ [(h, p)],
            paired_ids := insert h st.paired_ids,
            paired_pos := insert p st.paired_pos }

/-- Candidate list of `pair_heavy_ids_with_connected`, in loop order:
outer loop over `heavy_ids`, inner loop over `connected`. -/
def pairCandidates (d : ℕ → ℕ → ℚ) (heavy_ids connected : List ℕ) :
    List Triple :=
  heavy_ids.flatMap (fun h => connected.map (fun p => (d h p, h, p)))

/-- Embedding of `Topology.pair_heavy_ids_with_connected`: the resulting
`vertex.atom_position_pairs`. -/
def pair_heavy_ids_with_connected (d : ℕ → ℕ → ℚ)
    (heavy_ids connected : List ℕ) : List (ℕ × ℕ) :=
  (pairLoop (sortTriples (pairCandidates d heavy_ids connected))
    { pairs := [], paired_ids := ∅, paired_pos := ∅ }).pairs

/-! ## Recording of `heavy_ids` in `place_mols`
(`base.py`, lines 552-557 and 566-571)

After each placement the composite molecule is scanned atom by atom in
index order; indices of atoms whose atomic number is in
`FGInfo.heavy_atomic_nums` are appended to a `deque(maxlen=n)`.  The
`positions_A` branch stores `sorted(heavy_ids)`, the `positions_B` branch
stores `list(heavy_ids)`.  A molecule is modelled by the list of its atoms'
atomic numbers; an atom id is its index. -/

/-- One `append` to a `collections.deque(maxlen=n)`: when full, the
leftmost element is discarded. -/
def dequePush (n : ℕ) (q : List ℕ) (x : ℕ) : List ℕ :=
  (q ++ [x]).drop ((q ++ [x]).length - n)

/-- The scan loop: walk the composite molecule's atoms in index order and
push the index of every heavy atom into a `deque(maxlen=n)`; the result is
the deque's final content, left to right. -/
def recordHeavyIds (heavy_atomic_nums : List ℕ) (n : ℕ) (mol : List ℕ) :
    List ℕ :=
  mol.enum.foldl
    (fun q ia => if ia.2 ∈ heavy_atomic_nums then dequePush n q ia.1 else q)
    []

/-- Python's `sorted` on a list of atom ids: a stable ascending sort. -/
def pySorted (l : List ℕ) : List ℕ :=
  List.insertionSort (fun a b : ℕ => a ≤ b) l

/-! ## Embedding of `Topology.place_mols` (`base.py`, lines 508-571)

A building block is modelled by its `find_functional_group_atoms()` result
(only the length is read) together with the atom list of its placed
`heavy_mol` (geometric placement moves coordinates but neither adds nor
removes atoms; `chem.CombineMols` appends the placed fragment's atoms to
the composite).  Coordinates are abstracted by the distance oracle `d`
passed on to `pair_heavy_ids_with_connected`. -/

/-- A building block (`StructUnit`): its functional-group atoms and the
atoms of its heavy molecule. -/
structure BuildingBlock : Type where
  fg_atoms : List ℕ
  atoms : List ℕ
deriving DecidableEq

/-- The layout data of one placement site that `place_mols` reads: the
identifiers of its connected neighbours. -/
structure SiteLayout : Type where
  connected : List ℕ
deriving DecidableEq

/-- The state built up by `place_mols`: the composite molecule (atomic
numbers), the `bb_counter` update trace, which block each site's
`place_mol` call received (A and B sites separately), and the per-site
`heavy_ids` and `atom_position_pairs`. -/
structure PlaceState : Type where
  mol : List ℕ
  counterList : List BuildingBlock
  placedA : List BuildingBlock
  placedB : List BuildingBlock
  heavyIdsA : List (List ℕ)
  pairsA : List (List (ℕ × ℕ))
  heavyIdsB : List (List ℕ)
deriving DecidableEq

/-- The empty state at entry to `place_mols` (`heavy_mol = chem.Mol()`). -/
def initPlaceState : PlaceState :=
  { mol := [], counterList := [], placedA := [], placedB := [],
    heavyIdsA := [], pairsA := [], heavyIdsB := [] }

/-- Loop body for one `positions_A` site: combine the placed block into the
composite, update the counter, record the newest `n_bb` heavy ids sorted,
and compute the site's `atom_position_pairs`. -/
def placeStepA (d : ℕ → ℕ → ℚ) (hnums : List ℕ) (bb : BuildingBlock)
    (n_bb : ℕ) (st : PlaceState) (site : SiteLayout) : PlaceState :=
  let mol := st.mol ++ bb.atoms
  let hs := pySorted (recordHeavyIds hnums n_bb mol)
  { st with
      mol := mol,
      counterList := st.counterList ++ [bb],
      placedA := st.placedA ++ [bb],
      heavyIdsA := st.heavyIdsA ++ [hs],
      pairsA := st.pairsA ++
        [pair_heavy_ids_with_connected d hs site.connected] }

/-- Loop body for one `positions_B` site: combine the placed linker into
the composite, update the counter, record the newest `n_lk` heavy ids in
discovery order (`list(heavy_ids)`). -/
def placeStepB (hnums : List ℕ) (lk : BuildingBlock) (n_lk : ℕ)
    (st : PlaceState) (_site : SiteLayout) : PlaceState :=
  let mol := st.mol ++ lk.atoms
  let hs := recordHeavyIds hnums n_lk mol
  { st with
      mol := mol,
      counterList := st.counterList ++ [lk],
      placedB := st.placedB ++ [lk],
      heavyIdsB := st.heavyIdsB ++ [hs] }

/-- Embedding of `Topology.place_mols`: pick linker (`lk`) and core (`bb`) by comparing
functional-group counts (`if n_fg1 < n_fg2` with the tie falling to the
`else` branch), then place the core on every `positions_A` site and the
linker on every `positions_B` site. -/
def place_mols (d : ℕ → ℕ → ℚ) (hnums : List ℕ)
    (positions_A positions_B : List SiteLayout)
    (bb1 bb2 : BuildingBlock) : PlaceState :=
  let n_fg1 := bb1.fg_atoms.length
  let n_fg2 := bb2.fg_atoms.length
  let lk := if n_fg1 < n_fg2 then bb1 else bb2
  let n_lk := if n_fg1 < n_fg2 then n_fg1 else n_fg2
  let bb := if n_fg1 < n_fg2 then bb2 else bb1
  let n_bb := if n_fg1 < n_fg2 then n_fg2 else n_fg1
  positions_B.foldl (placeStepB hnums lk n_lk)
    (positions_A.foldl (placeStepA d hnums bb n_bb) initPlaceState)

/-! ## Embedding of `Topology.determine_bond_type`
(`base.py`, lines 662-719)

The method looks up each atom's heavy symbol with
`next(x.heavy_symbol for x in FGInfo.functional_group_list if ...)` — a
call that raises `StopIteration` when no registry entry matches — and
returns a DOUBLE bond type exactly when the symbol pair, in either order,
equals some entry of `FGInfo.double_bond_combs`.  The registry contents and
the composite's atomic numbers are parameters. -/

/-- Python errors relevant to `determine_bond_type`: `StopIteration`
(raised by `next` on an exhausted generator) and
`MissingFunctionalGroupError`.  Modelled from the spec: the specification
names `MissingFunctionalGroupError` as the failure of an unregistered
lookup; no such class exists anywhere in the repository, so the
constructor exists only to state the comparison. -/
inductive PyError : Type
  | stopIteration : PyError
  | missingFunctionalGroupError : PyError
deriving DecidableEq

/-- Python's `next(iterator)` with no default: the first element, or a raised
`StopIteration` when the iterator is exhausted. -/
def pyNext {α : Type} : List α → Except PyError α
  | [] => Except.error PyError.stopIteration
  | x :: _ => Except.ok x

/-- One entry of `FGInfo.functional_group_list` (only the fields
`determine_bond_type` reads). -/
structure FGInfoEntry : Type where
  heavy_symbol : String
  heavy_atomic_num : ℕ
deriving DecidableEq

/-- The lookup `next(x.heavy_symbol for x in FGInfo.functional_group_list if
n == x.heavy_atomic_num)`. -/
def heavySymbolLookup (fgl : List FGInfoEntry) (n : ℕ) :
    Except PyError String :=
  pyNext ((fgl.filter (fun x => n == x.heavy_atomic_num)).map
    (fun x => x.heavy_symbol))

/-- Embedding of `Topology.determine_bond_type`: `atomicNum` abstracts
`macro_mol.heavy_mol.GetAtomWithIdx(·).GetAtomicNum()`; `fgl` and
`double_bond_combs` are the registry contents.  `True in (... for tup in
double_bond_combs)` is an existential scan over the combination list. -/
def determine_bond_type (atomicNum : ℕ → ℕ) (fgl : List FGInfoEntry)
    (double_bond_combs : List (String × String)) (atom1_id atom2_id : ℕ) :
    Except PyError BondType := do
  let atom1_symbol ← heavySymbolLookup fgl (atomicNum atom1_id)
  let atom2_symbol ← heavySymbolLookup fgl (atomicNum atom2_id)
  if double_bond_combs.any (fun tup =>
      (atom1_symbol, atom2_symbol) == tup ||
      (atom2_symbol, atom1_symbol) == tup) then
    return BondType.DOUBLE
  else
    return BondType.SINGLE

/-! ## Geometry: `Vertex.edge_plane_normal` and `Edge.place_mol`
(`base.py`, lines 162-198 and 311-356)

Vectors are triples of reals.  The geometry helpers imported from
`convenience_tools` are not part of the sources at hand and are modelled
from the specification (§4.1). -/

/-- A 3-vector of reals (`numpy.array([x, y, z])`). -/
structure Vec3 : Type where
  x : ℝ
  y : ℝ
  z : ℝ

instance : Zero Vec3 :=
  ⟨{ x := 0, y := 0, z := 0 }⟩

instance : Sub Vec3 :=
  ⟨fun u v => { x := u.x - v.x, y := u.y - v.y, z := u.z - v.z }⟩

instance : SMul ℝ Vec3 :=
  ⟨fun c v => { x := c * v.x, y := c * v.y, z := c * v.z }⟩

/-- Euclidean dot product. -/
def dot (u v : Vec3) : ℝ :=
  u.x * v.x + u.y * v.y + u.z * v.z

/-- The cross product `np.cross`. -/
def cross (u v : Vec3) : Vec3 :=
  { x := u.y * v.z - u.z * v.y,
    y := u.z * v.x - u.x * v.z,
    z := u.x * v.y - u.y * v.x }

/-- The euclidean norm `np.linalg.norm`. -/
noncomputable def vnorm (v : Vec3) : ℝ :=
  Real.sqrt (dot v v)

/-- Modelled from the spec: `normalize(v) = v / |v|`, failing on `|v| = 0`
(`normalize_vector` of `convenience_tools` is not among the sources at
hand).  Division by a zero norm is the junk value `0` here, where Python
fails; every use below is guarded by a nonzero hypothesis. -/
noncomputable def normalize_vector (v : Vec3) : Vec3 :=
  (vnorm v)⁻¹ • v

/-- Modelled from the spec: `angle(u, v) = acos(dot(u,v) / (|u||v|))`, the
unsigned angle in `[0, π]` (`vector_theta` of `convenience_tools` is not
among the sources at hand). -/
noncomputable def vector_theta (u v : Vec3) : ℝ :=
  Real.arccos (dot u v / (vnorm u * vnorm v))

/-- All 2-combinations `itertools.combinations(l, 2)`, in Python's order. -/
def combinationPairs {α : Type} : List α → List (α × α)
  | [] => []
  | a :: l => l.map (fun b => (a, b)) ++ combinationPairs l

/-- Embedding of `Vertex.edge_direction_vectors`: normalized pairwise differences of the
connected neighbours' coordinates, in combination order. -/
noncomputable def edge_direction_vectors (connected : List Vec3) : List Vec3 :=
  (combinationPairs connected).map (fun p => normalize_vector (p.1 - p.2))

/-- Embedding of `Vertex.edge_plane_normal`: normalize the cross product of the first
two edge-direction vectors, then negate it when its angle to the first
connected neighbour's coordinate exceeds `π/2`. -/
noncomputable def edge_plane_normal (connected : List Vec3) : Vec3 :=
  let dirs := edge_direction_vectors connected
  let normal := normalize_vector (cross (dirs.getD 0 0) (dirs.getD 1 0))
  if vector_theta normal (connected.getD 0 0) > Real.pi / 2 then
    (-1 : ℝ) • normal
  else
    normal

/-- The observable placement outcome of `Edge.place_mol`: the linker's
heavy-atom centroid (`set_heavy_atom_centroid(self.coord)`) and the axis
its heavy atoms are oriented along (`set_heavy_mol_orientation`).
Modelled from the spec: `set_heavy_mol_orientation` and `minimize_theta`
belong to `StructUnit2`, which is not among the sources at hand; per §4.3
the former aligns the linker's directional axis with its argument and the
latter rotates the linker about that very axis, leaving both fields here
unchanged. -/
structure LinkerPlacement : Type where
  heavy_centroid : Vec3
  orientation : Vec3

/-- Embedding of `Edge.place_mol` with the random draw made explicit: the linker is
centred on the edge and oriented along `np.multiply(self.direction, flip)`
where `flip = np.random.choice([1, -1])`. -/
def edge_place_mol (coord direction : Vec3) (flip : ℝ) : LinkerPlacement :=
  { heavy_centroid := coord, orientation := flip • direction }

/-- The sample space of `np.random.choice([1, -1])`. -/
def flipChoices : List ℝ :=
  [1, -1]

/-- Whether the bond `b` (as recorded by `joinMols`) involves atom id
`a`. -/
def involves (a : ℕ) (b : ℕ × ℕ × BondType) : Bool :=
  a == b.1 || a == b.2.1

/-- Invariant of the bonding loop of `join_mols`: `bonds_made` counts the
bonds, both atoms of every bond are claimed in `paired`, and no atom id is
involved in two bonds. -/
def JoinInv (st : JoinState) : Prop :=
  st.bonds_made = st.bonds.length ∧
  (∀ b ∈ st.bonds, b.1 ∈ st.paired ∧ b.2.1 ∈ st.paired) ∧
  (∀ a : ℕ, st.bonds.countP (involves a) ≤ 1)

/-- Invariant of the greedy loop of `pair_heavy_ids_with_connected`: the
claimed-key sets are exactly the keys of the accepted pairs, and no key is
accepted twice. -/
def PairInv (st : PairState) : Prop :=
  st.paired_ids = (st.pairs.map Prod.fst).toFinset ∧
  st.paired_pos = (st.pairs.map Prod.snd).toFinset ∧
  (st.pairs.map Prod.fst).Nodup ∧
  (st.pairs.map Prod.snd).Nodup

/-! # Theorems -/

/-! ## Unfolding equations for the greedy loops -/

theorem processTriples_nil (bt : ℕ → ℕ → BondType) (st : JoinState) :
    processTriples bt [] st = st :=
  rfl

theorem processTriples_cons (bt : ℕ → ℕ → BondType) (q : ℚ) (a1 a2 : ℕ)
    (rest : List Triple) (st : JoinState) :
    processTriples bt ((q, a1, a2) :: rest) st =
      if a1 ∈ st.paired ∨ a2 ∈ st.paired then
        processTriples bt rest st
      else
        processTriples bt rest
          { paired := insert a1 (insert a2 st.paired),
            bonds := st.bonds ++ [(a1, a2, bt a1 a2)],
            bonds_made := st.bonds_made + 1 } :=
  rfl

theorem pairLoop_cons (q : ℚ) (h p : ℕ) (rest : List Triple)
    (st : PairState) :
    pairLoop ((q, h, p) :: rest) st =
      if h ∈ st.paired_ids ∨ p ∈ st.paired_pos then
        pairLoop rest st
      else
        pairLoop rest
          { pairs := st.pairs ++ [(h, p)],
            paired_ids := insert h st.paired_ids,
            paired_pos := insert p st.paired_pos } :=
  rfl

/-! ## The bonding loop as one greedy pass (C1, C2) -/

/-- Processing a concatenation of triple lists is processing them in
sequence: the loop over `positions_A` threads one state. -/
theorem processTriples_append (bt : ℕ → ℕ → BondType) (l1 l2 : List Triple)
    (st : JoinState) :
    processTriples bt (l1 ++ l2) st =
      processTriples bt l2 (processTriples bt l1 st) := by
  induction l1 generalizing st with
  | nil => rfl
  | cons t rest ih =>
    obtain ⟨q, a1, a2⟩ := t
    rw [List.cons_append, processTriples_cons, processTriples_cons]
    by_cases hp : a1 ∈ st.paired ∨ a2 ∈ st.paired
    · rw [if_pos hp, if_pos hp, ih]
    · rw [if_neg hp, if_neg hp, ih]

/-- The fold of the bonding loop over the sites equals one greedy pass over
the concatenation of the per-site lists. -/
theorem foldl_processTriples_eq (bt : ℕ → ℕ → BondType)
    (L : List JoinSite) (st : JoinState) :
    L.foldl (fun acc s => processTriples bt (sortTriples s.distances) acc)
        st =
      processTriples bt (L.flatMap (fun s => sortTriples s.distances)) st := by
  induction L generalizing st with
  | nil => rfl
  | cons s L ih =>
    rw [List.foldl_cons, List.flatMap_cons, processTriples_append, ih]

/-- The invariant `JoinInv` is preserved by the greedy bonding loop. -/
theorem processTriples_inv (bt : ℕ → ℕ → BondType) (l : List Triple)
    (st : JoinState) (h : JoinInv st) : JoinInv (processTriples bt l st) := by
  induction l generalizing st with
  | nil => exact h
  | cons t rest ih =>
    obtain ⟨q, a1, a2⟩ := t
    rw [processTriples_cons]
    by_cases hp : a1 ∈ st.paired ∨ a2 ∈ st.paired
    · rw [if_pos hp]
      exact ih st h
    · rw [if_neg hp]
      push_neg at hp
      obtain ⟨h1, h2, h3⟩ := h
      refine ih _ ⟨by simp [h1], ?_, ?_⟩
      · intro b hb
        rcases List.mem_append.mp hb with hb | hb
        · obtain ⟨hb1, hb2⟩ := h2 b hb
          exact ⟨Finset.mem_insert_of_mem (Finset.mem_insert_of_mem hb1),
            Finset.mem_insert_of_mem (Finset.mem_insert_of_mem hb2)⟩
        · rcases List.mem_singleton.mp hb with rfl
          exact ⟨Finset.mem_insert_self _ _,
            Finset.mem_insert_of_mem (Finset.mem_insert_self _ _)⟩
      · intro a
        rw [List.countP_append]
        by_cases ha : involves a (a1, a2, bt a1 a2) = true
        · have hz : st.bonds.countP (involves a) = 0 := by
            rw [List.countP_eq_zero]
            intro b hb hib
            obtain ⟨hb1, hb2⟩ := h2 b hb
            simp only [involves, Bool.or_eq_true, beq_iff_eq] at ha hib
            rcases ha with ha | ha <;> rcases hib with hib | hib
            · exact hp.1 (by rw [show a1 = b.1 from ha.symm.trans hib]; exact hb1)
            · exact hp.1 (by rw [show a1 = b.2.1 from ha.symm.trans hib]; exact hb2)
            · exact hp.2 (by rw [show a2 = b.1 from ha.symm.trans hib]; exact hb1)
            · exact hp.2 (by rw [show a2 = b.2.1 from ha.symm.trans hib]; exact hb2)
          simp [hz, List.countP_cons, ha]
        · simp only [List.countP_cons, List.countP_nil, ha]
          simpa using h3 a

/-- The invariant `JoinInv` is preserved by the whole of `join_mols`. -/
theorem joinMols_inv (bt : ℕ → ℕ → BondType) (d : ℕ → ℕ → ℚ)
    (sites : List JoinSite) (st : JoinState) (h : JoinInv st) :
    JoinInv (joinMols bt d sites st) := by
  rw [joinMols, foldl_processTriples_eq]
  exact processTriples_inv _ _ _ h

/-- C1 (counterexample): two `positions_A` sites are both paired to a
neighbour owning the single placeholder atom `2`.  Site one's only
candidate `(5, 0, 2)` is accepted because sites are processed one sorted
list at a time, even though site two's candidate `(1, 1, 2)` is strictly
shorter and would win under a single globally sorted list, as the claim
asserts.  The two matchings differ, refuting the claim. -/
theorem join_mols_global_sort_counterexample :
    (joinMols (fun _ _ => BondType.SINGLE)
        (fun a _ => if a = 0 then (5 : ℚ) else 1)
        [{ atom_position_pairs := [(0, [2])], distances := [] },
         { atom_position_pairs := [(1, [2])], distances := [] }]
        initJoinState).bonds ≠
      (joinMolsGlobalSort (fun _ _ => BondType.SINGLE)
        (fun a _ => if a = 0 then (5 : ℚ) else 1)
        [{ atom_position_pairs := [(0, [2])], distances := [] },
         { atom_position_pairs := [(1, [2])], distances := [] }]
        initJoinState).bonds := by
  decide

/-- C1 (amended): the set of bonds formed by `join_mols` equals greedy
exclusive matching over the concatenation, in `positions_A` order, of each
site's own ascending-sorted distance list, under one claimed-atom set
shared across all sites: a pair is bonded if and only if neither of its
atoms was claimed by a pair accepted earlier in that per-site-sorted
concatenation (not by one earlier in a single globally sorted list). -/
theorem join_mols_eq_greedy_per_site_sorted (bt : ℕ → ℕ → BondType)
    (d : ℕ → ℕ → ℚ) (sites : List JoinSite) (st : JoinState) :
    joinMols bt d sites st =
      processTriples bt
        ((joinMolsDistances d sites).flatMap
          (fun s => sortTriples s.distances)) st := by
  rw [joinMols, foldl_processTriples_eq]

/-- C2: after a build (`bonds_made = 0` on entry to `join_mols`),
`bonds_made` equals the number of pairs accepted in the final matching
pass, and every atom id occurring in an accepted pair occurs in exactly
one formed bond: the shared `paired` exclusivity set never lets a
placeholder atom be bonded twice. -/
theorem join_mols_bonds_made_eq_and_exclusive (bt : ℕ → ℕ → BondType)
    (d : ℕ → ℕ → ℚ) (sites : List JoinSite) :
    (joinMols bt d sites initJoinState).bonds_made =
        (joinMols bt d sites initJoinState).bonds.length ∧
      ∀ a b, b ∈ (joinMols bt d sites initJoinState).bonds →
        involves a b = true →
        (joinMols bt d sites initJoinState).bonds.countP (involves a) = 1 := by
  have hinv : JoinInv (joinMols bt d sites initJoinState) := by
    refine joinMols_inv bt d sites initJoinState ⟨rfl, ?_, ?_⟩
    · intro b hb
      exact absurd hb (List.not_mem_nil b)
    · intro a
      simp [initJoinState]
  refine ⟨hinv.1, ?_⟩
  intro a b hb hab
  refine le_antisymm (hinv.2.2 a) ?_
  have : 0 < (joinMols bt d sites initJoinState).bonds.countP (involves a) :=
    List.countP_pos_iff.mpr ⟨b, hb, hab⟩
  omega

/-- C2 witness: a single site with one pair and one neighbour atom; the
bond `(0, 1)` is formed, `bonds_made = 1 =` number of accepted pairs, and
atom `0` is involved in exactly one bond. -/
theorem join_mols_bonds_made_eq_and_exclusive_witness :
    ((joinMols (fun _ _ => BondType.SINGLE) (fun _ _ => (1 : ℚ))
        [{ atom_position_pairs := [(0, [1])], distances := [] }]
        initJoinState).bonds_made =
      (joinMols (fun _ _ => BondType.SINGLE) (fun _ _ => (1 : ℚ))
        [{ atom_position_pairs := [(0, [1])], distances := [] }]
        initJoinState).bonds.length) ∧
    (joinMols (fun _ _ => BondType.SINGLE) (fun _ _ => (1 : ℚ))
        [{ atom_position_pairs := [(0, [1])], distances := [] }]
        initJoinState).bonds.countP (involves 0) = 1 :=
  ⟨(join_mols_bonds_made_eq_and_exclusive (fun _ _ => BondType.SINGLE)
      (fun _ _ => (1 : ℚ))
      [{ atom_position_pairs := [(0, [1])], distances := [] }]).1,
   (join_mols_bonds_made_eq_and_exclusive (fun _ _ => BondType.SINGLE)
      (fun _ _ => (1 : ℚ))
      [{ atom_position_pairs := [(0, [1])], distances := [] }]).2
     0 (0, 1, BondType.SINGLE) (by decide) (by decide)⟩

/-! ## The site-to-neighbour matcher (C4) -/

/-- The claimed-key sets of the pairing loop only grow. -/
theorem pairLoop_mono (l : List Triple) (st : PairState) :
    st.paired_ids ⊆ (pairLoop l st).paired_ids ∧
    st.paired_pos ⊆ (pairLoop l st).paired_pos := by
  induction l generalizing st with
  | nil => exact ⟨Finset.Subset.refl _, Finset.Subset.refl _⟩
  | cons t rest ih =>
    obtain ⟨q, h, p⟩ := t
    rw [pairLoop_cons]
    by_cases hc : h ∈ st.paired_ids ∨ p ∈ st.paired_pos
    · rw [if_pos hc]
      exact ih st
    · rw [if_neg hc]
      obtain ⟨i1, i2⟩ := ih
        { pairs := st.pairs ++ [(h, p)],
          paired_ids := insert h st.paired_ids,
          paired_pos := insert p st.paired_pos }
      exact ⟨fun x hx => i1 (Finset.mem_insert_of_mem hx),
        fun x hx => i2 (Finset.mem_insert_of_mem hx)⟩

/-- The invariant `PairInv` is preserved by the pairing loop. -/
theorem pairLoop_inv (l : List Triple) (st : PairState) (hst : PairInv st) :
    PairInv (pairLoop l st) := by
  induction l generalizing st with
  | nil => exact hst
  | cons t rest ih =>
    obtain ⟨q, h, p⟩ := t
    rw [pairLoop_cons]
    by_cases hc : h ∈ st.paired_ids ∨ p ∈ st.paired_pos
    · rw [if_pos hc]
      exact ih st hst
    · rw [if_neg hc]
      push_neg at hc
      obtain ⟨e1, e2, n1, n2⟩ := hst
      refine ih _ ⟨?_, ?_, ?_, ?_⟩
      · simp [e1, List.toFinset_append, Finset.insert_eq, Finset.union_comm]
      · simp [e2, List.toFinset_append, Finset.insert_eq, Finset.union_comm]
      · rw [List.map_append]
        refine List.Nodup.append n1 (List.nodup_singleton h) ?_
        intro x hx hx'
        simp only [List.map_cons, List.map_nil, List.mem_singleton] at hx'
        subst hx'
        exact hc.1 (by rw [e1]; exact List.mem_toFinset.mpr hx)
      · rw [List.map_append]
        refine List.Nodup.append n2 (List.nodup_singleton p) ?_
        intro x hx hx'
        simp only [List.map_cons, List.map_nil, List.mem_singleton] at hx'
        subst hx'
        exact hc.2 (by rw [e2]; exact List.mem_toFinset.mpr hx)

/-- Every pair accepted by the pairing loop is an old pair or the key part
of a processed candidate triple. -/
theorem pairLoop_pairs_from (l : List Triple) (st : PairState) :
    ∀ q ∈ (pairLoop l st).pairs,
      q ∈ st.pairs ∨ ∃ dq : ℚ, (dq, q.1, q.2) ∈ l := by
  induction l generalizing st with
  | nil =>
    intro q hq
    exact Or.inl hq
  | cons t rest ih =>
    obtain ⟨dq, h, p⟩ := t
    intro q hq
    rw [pairLoop_cons] at hq
    by_cases hc : h ∈ st.paired_ids ∨ p ∈ st.paired_pos
    · rw [if_pos hc] at hq
      rcases ih st q hq with hq' | ⟨dq', hq'⟩
      · exact Or.inl hq'
      · exact Or.inr ⟨dq', List.mem_cons_of_mem _ hq'⟩
    · rw [if_neg hc] at hq
      rcases ih _ q hq with hq' | ⟨dq', hq'⟩
      · rcases List.mem_append.mp hq' with hq'' | hq''
        · exact Or.inl hq''
        · rcases List.mem_singleton.mp hq'' with rfl
          exact Or.inr ⟨dq, List.mem_cons_self _ _⟩
      · exact Or.inr ⟨dq', List.mem_cons_of_mem _ hq'⟩

/-- After the pairing loop, every processed candidate has at least one of
its two keys claimed (otherwise it would have been accepted). -/
theorem pairLoop_processed (l : List Triple) (st : PairState) :
    ∀ t ∈ l,
      t.2.1 ∈ (pairLoop l st).paired_ids ∨
      t.2.2 ∈ (pairLoop l st).paired_pos := by
  induction l generalizing st with
  | nil =>
    intro t ht
    exact absurd ht (List.not_mem_nil t)
  | cons u rest ih =>
    obtain ⟨q, h, p⟩ := u
    intro t ht
    rw [pairLoop_cons]
    by_cases hc : h ∈ st.paired_ids ∨ p ∈ st.paired_pos
    · rw [if_pos hc]
      rcases List.mem_cons.mp ht with rfl | ht'
      · rcases hc with hc | hc
        · exact Or.inl ((pairLoop_mono rest st).1 hc)
        · exact Or.inr ((pairLoop_mono rest st).2 hc)
      · exact ih st t ht'
    · rw [if_neg hc]
      rcases List.mem_cons.mp ht with rfl | ht'
      · exact Or.inl ((pairLoop_mono rest _).1 (Finset.mem_insert_self _ _))
      · exact ih _ t ht'

/-- Keys of a candidate triple lie in the generating lists. -/
theorem mem_pairCandidates {d : ℕ → ℕ → ℚ} {H C : List ℕ} {t : Triple}
    (ht : t ∈ pairCandidates d H C) : t.2.1 ∈ H ∧ t.2.2 ∈ C := by
  rw [pairCandidates, List.mem_flatMap] at ht
  obtain ⟨h, hh, ht⟩ := ht
  rw [List.mem_map] at ht
  obtain ⟨p, hp, rfl⟩ := ht
  exact ⟨hh, hp⟩

/-- Every `(heavy_id, position)` combination is generated as a
candidate. -/
theorem pairCandidates_mem {d : ℕ → ℕ → ℚ} {H C : List ℕ} {h p : ℕ}
    (hh : h ∈ H) (hp : p ∈ C) : (d h p, h, p) ∈ pairCandidates d H C := by
  rw [pairCandidates, List.mem_flatMap]
  exact ⟨h, hh, List.mem_map.mpr ⟨p, hp, rfl⟩⟩

/-- A list of pairs with duplicate-free keys holds any given key at most
once. -/
theorem countP_key_le_one {β : Type} (l : List (ℕ × β))
    (hn : (l.map Prod.fst).Nodup) (a : ℕ) :
    l.countP (fun q => q.1 == a) ≤ 1 := by
  induction l with
  | nil => simp
  | cons x l ih =>
    rw [List.map_cons, List.nodup_cons] at hn
    rw [List.countP_cons]
    by_cases hx : x.1 = a
    · have hz : l.countP (fun q => q.1 == a) = 0 := by
        rw [List.countP_eq_zero]
        intro q hq hqa
        rw [beq_iff_eq] at hqa
        exact hn.1 (List.mem_map.mpr ⟨q, hq, by rw [hqa, hx]⟩)
      simp [hz, hx]
    · simp only [show (x.1 == a) = false from beq_eq_false_iff_ne.mpr hx]
      simpa using ih hn.2

/-- C4: `pair_heavy_ids_with_connected` never assigns a heavy id or a
neighbouring position twice, so the number of accepted pairs is at most
the minimum of the two key counts; and because every
`(heavy_id, neighbour)` combination is generated as a candidate, whenever
the site has no more heavy ids than neighbours every heavy id is paired
with exactly one neighbouring position. -/
theorem pair_heavy_ids_exclusive_and_complete (d : ℕ → ℕ → ℚ)
    (H C : List ℕ) (_hH : H.Nodup) (hC : C.Nodup) :
    ((pair_heavy_ids_with_connected d H C).map Prod.fst).Nodup ∧
    ((pair_heavy_ids_with_connected d H C).map Prod.snd).Nodup ∧
    (pair_heavy_ids_with_connected d H C).length ≤ min H.length C.length ∧
    (H.length ≤ C.length → ∀ h0 ∈ H,
      (pair_heavy_ids_with_connected d H C).countP (fun q => q.1 == h0) =
        1) := by
  classical
  set st0 : PairState := { pairs := [], paired_ids := ∅, paired_pos := ∅ }
    with hst0
  set l := sortTriples (pairCandidates d H C) with hl
  have hperm : l.Perm (pairCandidates d H C) :=
    List.perm_insertionSort tripleLE (pairCandidates d H C)
  have hinv : PairInv (pairLoop l st0) := by
    refine pairLoop_inv l st0 ⟨?_, ?_, ?_, ?_⟩ <;> simp [hst0]
  obtain ⟨e1, e2, n1, n2⟩ := hinv
  have hout :
      pair_heavy_ids_with_connected d H C = (pairLoop l st0).pairs := rfl
  have hsub1 : ((pairLoop l st0).pairs.map Prod.fst) ⊆ H := by
    intro x hx
    rw [List.mem_map] at hx
    obtain ⟨q, hq, rfl⟩ := hx
    rcases pairLoop_pairs_from l st0 q hq with hq' | ⟨dq, hq'⟩
    · simp [hst0] at hq'
    · exact (mem_pairCandidates (hperm.mem_iff.mp hq')).1
  have hsub2 : ((pairLoop l st0).pairs.map Prod.snd) ⊆ C := by
    intro x hx
    rw [List.mem_map] at hx
    obtain ⟨q, hq, rfl⟩ := hx
    rcases pairLoop_pairs_from l st0 q hq with hq' | ⟨dq, hq'⟩
    · simp [hst0] at hq'
    · exact (mem_pairCandidates (hperm.mem_iff.mp hq')).2
  have hlen1 : (pairLoop l st0).pairs.length ≤ H.length := by
    have := (List.subperm_of_subset n1 hsub1).length_le
    simpa using this
  have hlen2 : (pairLoop l st0).pairs.length ≤ C.length := by
    have := (List.subperm_of_subset n2 hsub2).length_le
    simpa using this
  rw [hout]
  refine ⟨n1, n2, le_min hlen1 hlen2, ?_⟩
  intro hHC h0 hh0
  have hx : ∃ p0, (h0, p0) ∈ (pairLoop l st0).pairs := by
    by_contra hno
    push_neg at hno
    have hid : h0 ∉ (pairLoop l st0).paired_ids := by
      rw [e1]
      intro hmem
      rw [List.mem_toFinset, List.mem_map] at hmem
      obtain ⟨q, hq, hq1⟩ := hmem
      exact hno q.2 (by rwa [show (h0, q.2) = q by rw [← hq1]])
    have hCsub : C ⊆ (pairLoop l st0).pairs.map Prod.snd := by
      intro p0 hp0
      have hcand : (d h0 p0, h0, p0) ∈ l :=
        hperm.mem_iff.mpr (pairCandidates_mem hh0 hp0)
      rcases pairLoop_processed l st0 _ hcand with hmem | hmem
      · exact absurd hmem hid
      · rw [e2] at hmem
        exact List.mem_toFinset.mp hmem
    have hClen : C.length ≤ (pairLoop l st0).pairs.length := by
      have := (List.subperm_of_subset hC hCsub).length_le
      simpa using this
    have hfst : h0 ∉ (pairLoop l st0).pairs.map Prod.fst := by
      intro hmem
      rw [e1] at hid
      exact hid (List.mem_toFinset.mpr hmem)
    have hH1 : (pairLoop l st0).pairs.length + 1 ≤ H.length := by
      have hsub : (h0 :: (pairLoop l st0).pairs.map Prod.fst) ⊆ H := by
        intro x hx
        rcases List.mem_cons.mp hx with rfl | hx'
        · exact hh0
        · exact hsub1 hx'
      have hnod : (h0 :: (pairLoop l st0).pairs.map Prod.fst).Nodup :=
        List.nodup_cons.mpr ⟨hfst, n1⟩
      have := (List.subperm_of_subset hnod hsub).length_le
      simpa using this
    omega
  obtain ⟨p0, hp0⟩ := hx
  refine le_antisymm (countP_key_le_one _ n1 h0) ?_
  have : 0 < (pairLoop l st0).pairs.countP (fun q => q.1 == h0) :=
    List.countP_pos_iff.mpr ⟨(h0, p0), hp0, by simp⟩
  omega

/-- C4 witness: two heavy ids, two neighbours, both key lists
duplicate-free and of equal length; both heavy ids are matched, no key
twice, and heavy id `0` appears in exactly one accepted pair. -/
theorem pair_heavy_ids_exclusive_and_complete_witness :
    ([0, 1] : List ℕ).Nodup ∧ ([10, 11] : List ℕ).Nodup ∧
    ((pair_heavy_ids_with_connected (fun h p => (h + p : ℚ)) [0, 1]
        [10, 11]).map Prod.fst).Nodup ∧
    (pair_heavy_ids_with_connected (fun h p => (h + p : ℚ)) [0, 1]
        [10, 11]).length ≤ min 2 2 ∧
    (pair_heavy_ids_with_connected (fun h p => (h + p : ℚ)) [0, 1]
        [10, 11]).countP (fun q => q.1 == 0) = 1 :=
  ⟨by decide, by decide,
   (pair_heavy_ids_exclusive_and_complete (fun h p => (h + p : ℚ)) [0, 1]
      [10, 11] (by decide) (by decide)).1,
   (pair_heavy_ids_exclusive_and_complete (fun h p => (h + p : ℚ)) [0, 1]
      [10, 11] (by decide) (by decide)).2.2.1,
   (pair_heavy_ids_exclusive_and_complete (fun h p => (h + p : ℚ)) [0, 1]
      [10, 11] (by decide) (by decide)).2.2.2 (by decide) 0 (by decide)⟩

/-! ## Ordering of the recorded `heavy_ids` (C9) -/

/-- Pushing an upper bound keeps a deque strictly sorted and bounded. -/
theorem dequePush_sorted (n : ℕ) (q : List ℕ) (x : ℕ)
    (hs : q.Sorted (· < ·)) (hb : ∀ y ∈ q, y < x) :
    (dequePush n q x).Sorted (· < ·) ∧ ∀ y ∈ dequePush n q x, y < x + 1 := by
  have hqs : (q ++ [x]).Sorted (· < ·) := by
    rw [List.Sorted, List.pairwise_append]
    refine ⟨hs, List.pairwise_singleton _ _, ?_⟩
    intro a ha b hbm
    rw [List.mem_singleton] at hbm
    subst hbm
    exact hb a ha
  constructor
  · exact List.Pairwise.sublist (List.drop_sublist _ _) hqs
  · intro y hy
    have : y ∈ q ++ [x] := List.mem_of_mem_drop hy
    rcases List.mem_append.mp this with hy' | hy'
    · exact Nat.lt_succ_of_lt (hb y hy')
    · rw [List.mem_singleton] at hy'
      subst hy'
      exact Nat.lt_succ_self y

/-- The heavy-id scan, started at index `s` on a strictly sorted deque
bounded by `s`, yields a strictly sorted deque. -/
theorem recordHeavyIds_go_sorted (hnums : List ℕ) (n : ℕ) (mol : List ℕ)
    (s : ℕ) (q : List ℕ) (hs : q.Sorted (· < ·)) (hb : ∀ y ∈ q, y < s) :
    ((List.enumFrom s mol).foldl
        (fun q ia => if ia.2 ∈ hnums then dequePush n q ia.1 else q)
        q).Sorted (· < ·) ∧
      ∀ y ∈ (List.enumFrom s mol).foldl
        (fun q ia => if ia.2 ∈ hnums then dequePush n q ia.1 else q) q,
        y < s + mol.length := by
  induction mol generalizing s q with
  | nil =>
    exact ⟨hs, fun y hy => by simpa using hb y hy⟩
  | cons a mol ih =>
    rw [show List.enumFrom s (a :: mol) = (s, a) :: List.enumFrom (s + 1) mol
      from rfl]
    rw [List.foldl_cons]
    by_cases ha : a ∈ hnums
    · rw [if_pos ha]
      obtain ⟨p1, p2⟩ := dequePush_sorted n q s hs hb
      obtain ⟨r1, r2⟩ := ih (s + 1) (dequePush n q s) p1 p2
      refine ⟨r1, fun y hy => ?_⟩
      have := r2 y hy
      simpa [Nat.add_assoc, Nat.add_comm 1 mol.length] using this
    · rw [if_neg ha]
      obtain ⟨r1, r2⟩ := ih (s + 1) q hs (fun y hy => Nat.lt_succ_of_lt (hb y hy))
      refine ⟨r1, fun y hy => ?_⟩
      have := r2 y hy
      simpa [Nat.add_assoc, Nat.add_comm 1 mol.length] using this

/-- The recorded `heavy_ids` deque is strictly ascending. -/
theorem recordHeavyIds_sorted (hnums : List ℕ) (n : ℕ) (mol : List ℕ) :
    (recordHeavyIds hnums n mol).Sorted (· < ·) := by
  have h := recordHeavyIds_go_sorted hnums n mol 0 []
    (List.sorted_nil) (fun y hy => absurd hy (List.not_mem_nil y))
  exact h.1

/-- C9: the composite molecule is scanned in increasing atom-index order,
so the `deque(maxlen=n)` of the newest heavy-atom ids is already strictly
ascending; hence the `sorted(heavy_ids)` applied in the `positions_A`
branch is the identity, and the `sorted` versus discovery-order asymmetry
between the `positions_A` and `positions_B` recording branches is
extensionally unobservable. -/
theorem heavy_ids_sorted_and_branches_agree (hnums : List ℕ) (n : ℕ)
    (mol : List ℕ) :
    (recordHeavyIds hnums n mol).Sorted (· < ·) ∧
      pySorted (recordHeavyIds hnums n mol) = recordHeavyIds hnums n mol := by
  have hs := recordHeavyIds_sorted hnums n mol
  exact ⟨hs, List.Sorted.insertionSort_eq (hs.imp (fun h => le_of_lt h))⟩

/-! ## Block-to-site assignment in `place_mols` (C7, C10) -/

/-- The `positions_A` loop appends one placement of the core block per
site to `placedA` and to the counter and leaves `placedB` untouched. -/
theorem foldl_placeStepA (d : ℕ → ℕ → ℚ) (hnums : List ℕ)
    (bb : BuildingBlock) (n_bb : ℕ) (sites : List SiteLayout)
    (st : PlaceState) :
    (sites.foldl (placeStepA d hnums bb n_bb) st).placedA =
        st.placedA ++ List.replicate sites.length bb ∧
      (sites.foldl (placeStepA d hnums bb n_bb) st).placedB = st.placedB ∧
      (sites.foldl (placeStepA d hnums bb n_bb) st).counterList =
        st.counterList ++ List.replicate sites.length bb := by
  induction sites generalizing st with
  | nil => simp
  | cons s sites ih =>
    rw [List.foldl_cons]
    obtain ⟨i1, i2, i3⟩ := ih (placeStepA d hnums bb n_bb st s)
    rw [i1, i2, i3]
    refine ⟨?_, rfl, ?_⟩ <;>
      simp [placeStepA, List.replicate_succ, List.append_assoc]

/-- The `positions_B` loop appends one placement of the linker per site to
`placedB` and to the counter and leaves `placedA` untouched. -/
theorem foldl_placeStepB (hnums : List ℕ) (lk : BuildingBlock) (n_lk : ℕ)
    (sites : List SiteLayout) (st : PlaceState) :
    (sites.foldl (placeStepB hnums lk n_lk) st).placedB =
        st.placedB ++ List.replicate sites.length lk ∧
      (sites.foldl (placeStepB hnums lk n_lk) st).placedA = st.placedA ∧
      (sites.foldl (placeStepB hnums lk n_lk) st).counterList =
        st.counterList ++ List.replicate sites.length lk := by
  induction sites generalizing st with
  | nil => simp
  | cons s sites ih =>
    rw [List.foldl_cons]
    obtain ⟨i1, i2, i3⟩ := ih (placeStepB hnums lk n_lk st s)
    rw [i1, i2, i3]
    refine ⟨?_, rfl, ?_⟩ <;>
      simp [placeStepB, List.replicate_succ, List.append_assoc]

/-- C7: when the two building blocks have strictly different
functional-group counts, `place_mols` places the block with more groups
(the core) on every `positions_A` site and the block with fewer groups
(the linker) on every `positions_B` site, and the usage tally records
exactly `len(positions_A)` placements of the core and `len(positions_B)`
placements of the linker. -/
theorem place_mols_core_linker_assignment (d : ℕ → ℕ → ℚ) (hnums : List ℕ)
    (A B : List SiteLayout) (bb1 bb2 core lk : BuildingBlock)
    (hcl : (core = bb1 ∧ lk = bb2) ∨ (core = bb2 ∧ lk = bb1))
    (hflt : lk.fg_atoms.length < core.fg_atoms.length) :
    (place_mols d hnums A B bb1 bb2).placedA = List.replicate A.length core ∧
    (place_mols d hnums A B bb1 bb2).placedB = List.replicate B.length lk ∧
    (place_mols d hnums A B bb1 bb2).counterList.count core = A.length ∧
    (place_mols d hnums A B bb1 bb2).counterList.count lk = B.length := by
  have hne : core ≠ lk := by
    intro h
    rw [h] at hflt
    exact lt_irrefl _ hflt
  rcases hcl with ⟨rfl, rfl⟩ | ⟨rfl, rfl⟩
  · rw [place_mols]
    rw [if_neg (by omega), if_neg (by omega), if_neg (by omega),
      if_neg (by omega)]
    obtain ⟨a1, a2, a3⟩ := foldl_placeStepA d hnums core
      core.fg_atoms.length A initPlaceState
    obtain ⟨b1, b2, b3⟩ := foldl_placeStepB hnums lk lk.fg_atoms.length B
      (A.foldl (placeStepA d hnums core core.fg_atoms.length) initPlaceState)
    rw [b1, b2, b3, a1, a2, a3]
    refine ⟨by simp [initPlaceState], by simp [initPlaceState], ?_, ?_⟩
    · simp [initPlaceState, List.count_append, List.count_replicate_self,
        List.count_replicate, hne, Ne.symm hne]
    · simp [initPlaceState, List.count_append, List.count_replicate_self,
        List.count_replicate, hne, Ne.symm hne]
  · rw [place_mols]
    rw [if_pos hflt, if_pos hflt, if_pos hflt, if_pos hflt]
    obtain ⟨a1, a2, a3⟩ := foldl_placeStepA d hnums core
      core.fg_atoms.length A initPlaceState
    obtain ⟨b1, b2, b3⟩ := foldl_placeStepB hnums lk lk.fg_atoms.length B
      (A.foldl (placeStepA d hnums core core.fg_atoms.length) initPlaceState)
    rw [b1, b2, b3, a1, a2, a3]
    refine ⟨by simp [initPlaceState], by simp [initPlaceState], ?_, ?_⟩
    · simp [initPlaceState, List.count_append, List.count_replicate_self,
        List.count_replicate, hne, Ne.symm hne]
    · simp [initPlaceState, List.count_append, List.count_replicate_self,
        List.count_replicate, hne, Ne.symm hne]

/-- C7 witness: one `positions_A` site and one `positions_B` site; the
two-group block is the core, the one-group block the linker. -/
theorem place_mols_core_linker_assignment_witness :
    (((1 : ℕ) < 2) ∧
      (place_mols (fun _ _ => (0 : ℚ)) [] [{ connected := [] }]
          [{ connected := [] }] { fg_atoms := [0], atoms := [6] }
          { fg_atoms := [0, 1], atoms := [7, 8] }).placedA =
        List.replicate 1 { fg_atoms := [0, 1], atoms := [7, 8] }) ∧
    (place_mols (fun _ _ => (0 : ℚ)) [] [{ connected := [] }]
        [{ connected := [] }] { fg_atoms := [0], atoms := [6] }
        { fg_atoms := [0, 1], atoms := [7, 8] }).placedB =
      List.replicate 1 { fg_atoms := [0], atoms := [6] } ∧
    (place_mols (fun _ _ => (0 : ℚ)) [] [{ connected := [] }]
        [{ connected := [] }] { fg_atoms := [0], atoms := [6] }
        { fg_atoms := [0, 1], atoms := [7, 8] }).counterList.count
      { fg_atoms := [0, 1], atoms := [7, 8] } = 1 :=
  ⟨⟨by decide,
    (place_mols_core_linker_assignment (fun _ _ => (0 : ℚ)) []
      [{ connected := [] }] [{ connected := [] }]
      { fg_atoms := [0], atoms := [6] } { fg_atoms := [0, 1], atoms := [7, 8] }
      { fg_atoms := [0, 1], atoms := [7, 8] } { fg_atoms := [0], atoms := [6] }
      (Or.inr ⟨rfl, rfl⟩) (by decide)).1⟩,
   (place_mols_core_linker_assignment (fun _ _ => (0 : ℚ)) []
      [{ connected := [] }] [{ connected := [] }]
      { fg_atoms := [0], atoms := [6] } { fg_atoms := [0, 1], atoms := [7, 8] }
      { fg_atoms := [0, 1], atoms := [7, 8] } { fg_atoms := [0], atoms := [6] }
      (Or.inr ⟨rfl, rfl⟩) (by decide)).2.1,
   (place_mols_core_linker_assignment (fun _ _ => (0 : ℚ)) []
      [{ connected := [] }] [{ connected := [] }]
      { fg_atoms := [0], atoms := [6] } { fg_atoms := [0, 1], atoms := [7, 8] }
      { fg_atoms := [0, 1], atoms := [7, 8] } { fg_atoms := [0], atoms := [6] }
      (Or.inr ⟨rfl, rfl⟩) (by decide)).2.2.1⟩

/-- C10: when the two blocks have exactly equal functional-group counts,
the comparison `n_fg1 < n_fg2` is false, so the `else` branch makes the
first-supplied block the core (placed on every `positions_A` site) and the
second-supplied block the linker (placed on every `positions_B` site). -/
theorem place_mols_tie_assignment (d : ℕ → ℕ → ℚ) (hnums : List ℕ)
    (A B : List SiteLayout) (bb1 bb2 : BuildingBlock)
    (heq : bb1.fg_atoms.length = bb2.fg_atoms.length) :
    (place_mols d hnums A B bb1 bb2).placedA =
        List.replicate A.length bb1 ∧
      (place_mols d hnums A B bb1 bb2).placedB =
        List.replicate B.length bb2 := by
  rw [place_mols]
  rw [if_neg (by omega), if_neg (by omega), if_neg (by omega),
    if_neg (by omega)]
  obtain ⟨a1, a2, a3⟩ := foldl_placeStepA d hnums bb1
    bb1.fg_atoms.length A initPlaceState
  obtain ⟨b1, b2, b3⟩ := foldl_placeStepB hnums bb2 bb2.fg_atoms.length B
    (A.foldl (placeStepA d hnums bb1 bb1.fg_atoms.length) initPlaceState)
  rw [b1, b2, a1, a2]
  simp [initPlaceState]

/-- C10 witness: two blocks with one functional group each; the first goes
to the `positions_A` site, the second to the `positions_B` site. -/
theorem place_mols_tie_assignment_witness :
    (([0] : List ℕ).length = ([1] : List ℕ).length ∧
      (place_mols (fun _ _ => (0 : ℚ)) [] [{ connected := [] }]
          [{ connected := [] }] { fg_atoms := [0], atoms := [6] }
          { fg_atoms := [1], atoms := [9] }).placedA =
        List.replicate 1 { fg_atoms := [0], atoms := [6] }) ∧
    (place_mols (fun _ _ => (0 : ℚ)) [] [{ connected := [] }]
        [{ connected := [] }] { fg_atoms := [0], atoms := [6] }
        { fg_atoms := [1], atoms := [9] }).placedB =
      List.replicate 1 { fg_atoms := [1], atoms := [9] } :=
  ⟨⟨by decide,
    (place_mols_tie_assignment (fun _ _ => (0 : ℚ)) [] [{ connected := [] }]
      [{ connected := [] }] { fg_atoms := [0], atoms := [6] }
      { fg_atoms := [1], atoms := [9] } (by decide)).1⟩,
   (place_mols_tie_assignment (fun _ _ => (0 : ℚ)) [] [{ connected := [] }]
      [{ connected := [] }] { fg_atoms := [0], atoms := [6] }
      { fg_atoms := [1], atoms := [9] } (by decide)).2⟩

/-! ## The bond-order rule (C3, C6) -/

/-- When both symbol lookups succeed, `determine_bond_type` reduces to the
double-bond combination test. -/
theorem determine_bond_type_of_ok (atomicNum : ℕ → ℕ)
    (fgl : List FGInfoEntry) (dbc : List (String × String)) (a1 a2 : ℕ)
    (s1 s2 : String)
    (h1 : heavySymbolLookup fgl (atomicNum a1) = Except.ok s1)
    (h2 : heavySymbolLookup fgl (atomicNum a2) = Except.ok s2) :
    determine_bond_type atomicNum fgl dbc a1 a2 =
      if dbc.any (fun tup => (s1, s2) == tup || (s2, s1) == tup) then
        Except.ok BondType.DOUBLE
      else
        Except.ok BondType.SINGLE := by
  rw [determine_bond_type, h1, h2]
  rfl

/-- The Boolean double-bond scan read as an existential over the
combination list. -/
theorem double_comb_any_iff (dbc : List (String × String)) (s1 s2 : String) :
    (dbc.any (fun tup => (s1, s2) == tup || (s2, s1) == tup) = true) ↔
      ∃ tup ∈ dbc, tup = (s1, s2) ∨ tup = (s2, s1) := by
  rw [List.any_eq_true]
  constructor
  · rintro ⟨t, ht, hor⟩
    rcases Bool.or_eq_true_iff.mp hor with h | h
    · exact ⟨t, ht, Or.inl (beq_iff_eq.mp h).symm⟩
    · exact ⟨t, ht, Or.inr (beq_iff_eq.mp h).symm⟩
  · rintro ⟨t, ht, h | h⟩
    · exact ⟨t, ht, Bool.or_eq_true_iff.mpr (Or.inl (beq_iff_eq.mpr h.symm))⟩
    · exact ⟨t, ht, Bool.or_eq_true_iff.mpr (Or.inr (beq_iff_eq.mpr h.symm))⟩

/-- C6: for registered atoms, `determine_bond_type` returns DOUBLE if and
only if the unordered pair of the two atoms' placeholder symbols matches a
`double_bond_combs` entry in either ordering, returns SINGLE otherwise,
and is symmetric in its two arguments. -/
theorem determine_bond_type_double_iff_and_symm (atomicNum : ℕ → ℕ)
    (fgl : List FGInfoEntry) (dbc : List (String × String)) (a1 a2 : ℕ)
    (s1 s2 : String)
    (h1 : heavySymbolLookup fgl (atomicNum a1) = Except.ok s1)
    (h2 : heavySymbolLookup fgl (atomicNum a2) = Except.ok s2) :
    (determine_bond_type atomicNum fgl dbc a1 a2 =
        Except.ok BondType.DOUBLE ↔
      ∃ tup ∈ dbc, tup = (s1, s2) ∨ tup = (s2, s1)) ∧
    (determine_bond_type atomicNum fgl dbc a1 a2 =
        Except.ok BondType.SINGLE ↔
      ¬ ∃ tup ∈ dbc, tup = (s1, s2) ∨ tup = (s2, s1)) ∧
    determine_bond_type atomicNum fgl dbc a1 a2 =
      determine_bond_type atomicNum fgl dbc a2 a1 := by
  have e12 := determine_bond_type_of_ok atomicNum fgl dbc a1 a2 s1 s2 h1 h2
  have e21 := determine_bond_type_of_ok atomicNum fgl dbc a2 a1 s2 s1 h2 h1
  have hcomm :
      dbc.any (fun tup => (s1, s2) == tup || (s2, s1) == tup) =
        dbc.any (fun tup => (s2, s1) == tup || (s1, s2) == tup) :=
    congrArg (fun p => dbc.any p) (funext (fun t => Bool.or_comm _ _))
  refine ⟨?_, ?_, ?_⟩
  · rw [e12]
    by_cases hany :
        dbc.any (fun tup => (s1, s2) == tup || (s2, s1) == tup) = true
    · rw [if_pos hany]
      exact iff_of_true rfl ((double_comb_any_iff dbc s1 s2).mp hany)
    · rw [if_neg hany]
      refine iff_of_false (by simp) ?_
      intro hex
      exact hany ((double_comb_any_iff dbc s1 s2).mpr hex)
  · rw [e12]
    by_cases hany :
        dbc.any (fun tup => (s1, s2) == tup || (s2, s1) == tup) = true
    · rw [if_pos hany]
      refine iff_of_false (by simp) ?_
      intro hnex
      exact hnex ((double_comb_any_iff dbc s1 s2).mp hany)
    · rw [if_neg hany]
      refine iff_of_true rfl ?_
      intro hex
      exact hany ((double_comb_any_iff dbc s1 s2).mpr hex)
  · rw [e12, e21, hcomm]

/-- C6 witness: a registry with rhodium and yttrium placeholders and the
double-bond combination `("Rh", "Y")`; the lookup pair `(45, 39)` gives a
DOUBLE bond and the call is symmetric. -/
theorem determine_bond_type_double_iff_and_symm_witness :
    (heavySymbolLookup
        [{ heavy_symbol := "Rh", heavy_atomic_num := 45 },
         { heavy_symbol := "Y", heavy_atomic_num := 39 }] 45 =
      Except.ok "Rh") ∧
    (determine_bond_type (fun i => if i = 0 then 45 else 39)
        [{ heavy_symbol := "Rh", heavy_atomic_num := 45 },
         { heavy_symbol := "Y", heavy_atomic_num := 39 }] [("Rh", "Y")] 0 1 =
      Except.ok BondType.DOUBLE) ∧
    determine_bond_type (fun i => if i = 0 then 45 else 39)
        [{ heavy_symbol := "Rh", heavy_atomic_num := 45 },
         { heavy_symbol := "Y", heavy_atomic_num := 39 }] [("Rh", "Y")] 0 1 =
      determine_bond_type (fun i => if i = 0 then 45 else 39)
        [{ heavy_symbol := "Rh", heavy_atomic_num := 45 },
         { heavy_symbol := "Y", heavy_atomic_num := 39 }] [("Rh", "Y")] 1 0 :=
  ⟨rfl,
   (determine_bond_type_double_iff_and_symm (fun i => if i = 0 then 45 else 39)
      [{ heavy_symbol := "Rh", heavy_atomic_num := 45 },
       { heavy_symbol := "Y", heavy_atomic_num := 39 }] [("Rh", "Y")] 0 1
      "Rh" "Y" rfl rfl).1.mpr
     ⟨("Rh", "Y"), List.mem_singleton.mpr rfl, Or.inl rfl⟩,
   (determine_bond_type_double_iff_and_symm (fun i => if i = 0 then 45 else 39)
      [{ heavy_symbol := "Rh", heavy_atomic_num := 45 },
       { heavy_symbol := "Y", heavy_atomic_num := 39 }] [("Rh", "Y")] 0 1
      "Rh" "Y" rfl rfl).2.2⟩

/-- C3 counterexample: with an empty registry the lookup for atom `0`
fails, but the error raised is `StopIteration` (from `next` on the
exhausted generator), not the `MissingFunctionalGroupError` the claim
names — no such class exists anywhere in the repository. -/
theorem determine_bond_type_error_is_stop_iteration :
    determine_bond_type (fun _ => 39) [] [] 0 1 =
        Except.error PyError.stopIteration ∧
      determine_bond_type (fun _ => 39) [] [] 0 1 ≠
        Except.error PyError.missingFunctionalGroupError := by
  refine ⟨rfl, ?_⟩
  intro h
  rw [show determine_bond_type (fun _ => 39) [] [] 0 1 =
      Except.error PyError.stopIteration from rfl] at h
  exact absurd (Except.error.inj h) (by simp)

/-- C3 (amended): for every pair of atom ids such that at least one atom's
atomic number has no entry in the functional-group registry,
`determine_bond_type` fails — raising `StopIteration` — rather than
returning a bond order or silently defaulting. -/
theorem determine_bond_type_unregistered_raises (atomicNum : ℕ → ℕ)
    (fgl : List FGInfoEntry) (dbc : List (String × String)) (a1 a2 : ℕ)
    (h : (∀ x ∈ fgl, atomicNum a1 ≠ x.heavy_atomic_num) ∨
      ∀ x ∈ fgl, atomicNum a2 ≠ x.heavy_atomic_num) :
    determine_bond_type atomicNum fgl dbc a1 a2 =
      Except.error PyError.stopIteration := by
  rcases h with h | h
  · have hfil : fgl.filter (fun x => atomicNum a1 == x.heavy_atomic_num) = [] :=
      List.filter_eq_nil_iff.mpr
        (fun x hx => by simpa using h x hx)
    rw [determine_bond_type, heavySymbolLookup, hfil]
    rfl
  · have hfil : fgl.filter (fun x => atomicNum a2 == x.heavy_atomic_num) = [] :=
      List.filter_eq_nil_iff.mpr
        (fun x hx => by simpa using h x hx)
    rw [determine_bond_type, heavySymbolLookup, heavySymbolLookup, hfil]
    cases hfl : fgl.filter (fun x => atomicNum a1 == x.heavy_atomic_num) with
    | nil => rfl
    | cons y ys => rfl

/-- C3 witness: a registry holding only the rhodium placeholder; looking
up a bond involving an atom of atomic number 39 raises `StopIteration`. -/
theorem determine_bond_type_unregistered_raises_witness :
    (∀ x ∈ [({ heavy_symbol := "Rh", heavy_atomic_num := 45 } : FGInfoEntry)],
      (39 : ℕ) ≠ x.heavy_atomic_num) ∧
    determine_bond_type (fun _ => 39)
        [{ heavy_symbol := "Rh", heavy_atomic_num := 45 }] [] 0 1 =
      Except.error PyError.stopIteration :=
  ⟨by decide,
   determine_bond_type_unregistered_raises (fun _ => 39)
     [{ heavy_symbol := "Rh", heavy_atomic_num := 45 }] [] 0 1
     (Or.inl (by decide))⟩

/-! ## Geometry of `edge_plane_normal` and `Edge.place_mol` (C5, C8) -/

theorem vec3_ext {u v : Vec3} (hx : u.x = v.x) (hy : u.y = v.y)
    (hz : u.z = v.z) : u = v := by
  cases u
  cases v
  cases hx
  cases hy
  cases hz
  rfl

theorem vec3_smul_x (c : ℝ) (v : Vec3) : (c • v).x = c * v.x := rfl

theorem vec3_smul_y (c : ℝ) (v : Vec3) : (c • v).y = c * v.y := rfl

theorem vec3_smul_z (c : ℝ) (v : Vec3) : (c • v).z = c * v.z := rfl

theorem vec3_sub_x (u v : Vec3) : (u - v).x = u.x - v.x := rfl

theorem vec3_sub_y (u v : Vec3) : (u - v).y = u.y - v.y := rfl

theorem vec3_sub_z (u v : Vec3) : (u - v).z = u.z - v.z := rfl

theorem vec3_zero_x : (0 : Vec3).x = 0 := rfl

theorem vec3_zero_y : (0 : Vec3).y = 0 := rfl

theorem vec3_zero_z : (0 : Vec3).z = 0 := rfl

theorem dot_self_nonneg (v : Vec3) : 0 ≤ dot v v := by
  rw [dot]
  nlinarith [mul_self_nonneg v.x, mul_self_nonneg v.y, mul_self_nonneg v.z]

theorem dot_self_pos (v : Vec3) (hv : v ≠ 0) : 0 < dot v v := by
  rcases lt_or_eq_of_le (dot_self_nonneg v) with h | h
  · exact h
  · exfalso
    apply hv
    rw [dot] at h
    have hx : v.x * v.x = 0 := by
      nlinarith [mul_self_nonneg v.x, mul_self_nonneg v.y, mul_self_nonneg v.z]
    have hy : v.y * v.y = 0 := by
      nlinarith [mul_self_nonneg v.x, mul_self_nonneg v.y, mul_self_nonneg v.z]
    have hz : v.z * v.z = 0 := by
      nlinarith [mul_self_nonneg v.x, mul_self_nonneg v.y, mul_self_nonneg v.z]
    refine vec3_ext ?_ ?_ ?_
    · rw [vec3_zero_x]
      exact mul_self_eq_zero.mp hx
    · rw [vec3_zero_y]
      exact mul_self_eq_zero.mp hy
    · rw [vec3_zero_z]
      exact mul_self_eq_zero.mp hz

theorem vnorm_pos (v : Vec3) (hv : v ≠ 0) : 0 < vnorm v :=
  Real.sqrt_pos.mpr (dot_self_pos v hv)

theorem dot_smul_self (c : ℝ) (v : Vec3) :
    dot (c • v) (c • v) = c ^ 2 * dot v v := by
  rw [dot, dot, vec3_smul_x, vec3_smul_y, vec3_smul_z]
  ring

theorem vnorm_smul (c : ℝ) (v : Vec3) : vnorm (c • v) = |c| * vnorm v := by
  rw [vnorm, vnorm, dot_smul_self, Real.sqrt_mul (sq_nonneg c),
    Real.sqrt_sq_eq_abs]

theorem vnorm_normalize (v : Vec3) (hv : v ≠ 0) :
    vnorm (normalize_vector v) = 1 := by
  rw [normalize_vector, vnorm_smul, abs_inv,
    abs_of_pos (vnorm_pos v hv)]
  exact inv_mul_cancel₀ (ne_of_gt (vnorm_pos v hv))

theorem normalize_vector_ne_zero (v : Vec3) (hv : v ≠ 0) :
    normalize_vector v ≠ 0 := by
  intro h
  have h1 := vnorm_normalize v hv
  rw [h, vnorm, dot] at h1
  rw [vec3_zero_x, vec3_zero_y, vec3_zero_z] at h1
  norm_num [Real.sqrt_eq_zero'] at h1

theorem dot_neg_one_smul (v w : Vec3) :
    dot ((-1 : ℝ) • v) w = -dot v w := by
  rw [dot, dot, vec3_smul_x, vec3_smul_y, vec3_smul_z]
  ring

theorem vector_theta_neg_one_smul (n c : Vec3) :
    vector_theta ((-1 : ℝ) • n) c =
      Real.arccos (-(dot n c / (vnorm n * vnorm c))) := by
  rw [vector_theta, dot_neg_one_smul, vnorm_smul, abs_neg, abs_one,
    one_mul, neg_div]

/-- C5: for a vertex whose first two edge-direction vectors are linearly
independent (nonzero cross product), `edge_plane_normal` returns a vector
of norm 1 whose angle to the first connected neighbour's coordinate is at
most 90 degrees; and when the raw normalized cross product makes an angle
above 90 degrees with that coordinate, the returned normal is its
negation. -/
theorem edge_plane_normal_unit_and_sign (connected : List Vec3)
    (_hlen : 3 ≤ connected.length)
    (hcross : cross ((edge_direction_vectors connected).getD 0 0)
        ((edge_direction_vectors connected).getD 1 0) ≠ 0) :
    vnorm (edge_plane_normal connected) = 1 ∧
      vector_theta (edge_plane_normal connected) (connected.getD 0 0) ≤
        Real.pi / 2 ∧
      (Real.pi / 2 <
          vector_theta
            (normalize_vector
              (cross ((edge_direction_vectors connected).getD 0 0)
                ((edge_direction_vectors connected).getD 1 0)))
            (connected.getD 0 0) →
        edge_plane_normal connected =
          (-1 : ℝ) • normalize_vector
            (cross ((edge_direction_vectors connected).getD 0 0)
              ((edge_direction_vectors connected).getD 1 0))) := by
  set v1 := (edge_direction_vectors connected).getD 0 0 with hv1
  set v2 := (edge_direction_vectors connected).getD 1 0 with hv2
  set n := normalize_vector (cross v1 v2) with hn
  set c0 := connected.getD 0 0 with hc0
  have hepn : edge_plane_normal connected =
      if Real.pi / 2 < vector_theta n c0 then (-1 : ℝ) • n else n := rfl
  have hn1 : vnorm n = 1 := vnorm_normalize _ hcross
  by_cases hθ : Real.pi / 2 < vector_theta n c0
  · have hq : dot n c0 / (vnorm n * vnorm c0) < 0 := by
      by_contra hge
      push_neg at hge
      have hle := Real.arccos_le_pi_div_two.mpr hge
      rw [vector_theta] at hθ
      linarith
    rw [hepn, if_pos hθ]
    refine ⟨?_, ?_, fun _ => rfl⟩
    · rw [vnorm_smul, abs_neg, abs_one, one_mul, hn1]
    · rw [vector_theta_neg_one_smul]
      exact Real.arccos_le_pi_div_two.mpr (by linarith)
  · rw [hepn, if_neg hθ]
    push_neg at hθ
    exact ⟨hn1, hθ, fun hcontra => absurd hcontra (not_lt.mpr hθ)⟩

theorem normalize_vector_neg_e1 :
    normalize_vector { x := -1, y := 0, z := 0 } =
      ({ x := -1, y := 0, z := 0 } : Vec3) := by
  have h : vnorm { x := -1, y := 0, z := 0 } = 1 := by
    rw [vnorm, dot]
    norm_num [Real.sqrt_one]
  rw [normalize_vector, h, inv_one]
  refine vec3_ext ?_ ?_ ?_ <;>
    simp [vec3_smul_x, vec3_smul_y, vec3_smul_z]

theorem normalize_vector_neg_e2 :
    normalize_vector { x := 0, y := -1, z := 0 } =
      ({ x := 0, y := -1, z := 0 } : Vec3) := by
  have h : vnorm { x := 0, y := -1, z := 0 } = 1 := by
    rw [vnorm, dot]
    norm_num [Real.sqrt_one]
  rw [normalize_vector, h, inv_one]
  refine vec3_ext ?_ ?_ ?_ <;>
    simp [vec3_smul_x, vec3_smul_y, vec3_smul_z]

/-- C5 witness: a vertex at height 1 with three connected neighbours whose
first two direction vectors are the negated coordinate axes; the plane
normal is the unit vector `(0, 0, 1)`, already pointing within 90 degrees
of the first neighbour `(1, 1, 1)`. -/
theorem edge_plane_normal_unit_and_sign_witness :
    3 ≤ ([⟨1, 1, 1⟩, ⟨2, 1, 1⟩, ⟨1, 2, 1⟩] : List Vec3).length ∧
    vnorm (edge_plane_normal [⟨1, 1, 1⟩, ⟨2, 1, 1⟩, ⟨1, 2, 1⟩]) = 1 ∧
    vector_theta (edge_plane_normal [⟨1, 1, 1⟩, ⟨2, 1, 1⟩, ⟨1, 2, 1⟩])
      (([⟨1, 1, 1⟩, ⟨2, 1, 1⟩, ⟨1, 2, 1⟩] : List Vec3).getD 0 0) ≤
      Real.pi / 2 := by
  have hd1 : (edge_direction_vectors
      [⟨1, 1, 1⟩, ⟨2, 1, 1⟩, ⟨1, 2, 1⟩]).getD 0 0 =
      ({ x := -1, y := 0, z := 0 } : Vec3) := by
    show normalize_vector ((⟨1, 1, 1⟩ : Vec3) - ⟨2, 1, 1⟩) = _
    rw [show (⟨1, 1, 1⟩ : Vec3) - ⟨2, 1, 1⟩ =
        ({ x := -1, y := 0, z := 0 } : Vec3) from by
      refine vec3_ext ?_ ?_ ?_ <;>
        norm_num [vec3_sub_x, vec3_sub_y, vec3_sub_z]]
    exact normalize_vector_neg_e1
  have hd2 : (edge_direction_vectors
      [⟨1, 1, 1⟩, ⟨2, 1, 1⟩, ⟨1, 2, 1⟩]).getD 1 0 =
      ({ x := 0, y := -1, z := 0 } : Vec3) := by
    show normalize_vector ((⟨1, 1, 1⟩ : Vec3) - ⟨1, 2, 1⟩) = _
    rw [show (⟨1, 1, 1⟩ : Vec3) - ⟨1, 2, 1⟩ =
        ({ x := 0, y := -1, z := 0 } : Vec3) from by
      refine vec3_ext ?_ ?_ ?_ <;>
        norm_num [vec3_sub_x, vec3_sub_y, vec3_sub_z]]
    exact normalize_vector_neg_e2
  have hcross : cross ((edge_direction_vectors
      [⟨1, 1, 1⟩, ⟨2, 1, 1⟩, ⟨1, 2, 1⟩]).getD 0 0)
      ((edge_direction_vectors
        [⟨1, 1, 1⟩, ⟨2, 1, 1⟩, ⟨1, 2, 1⟩]).getD 1 0) ≠ 0 := by
    rw [hd1, hd2]
    intro h
    have hz := congrArg Vec3.z h
    rw [vec3_zero_z, cross] at hz
    norm_num at hz
  have hmain := edge_plane_normal_unit_and_sign
    [⟨1, 1, 1⟩, ⟨2, 1, 1⟩, ⟨1, 2, 1⟩] (by norm_num) hcross
  exact ⟨by norm_num, hmain.1, hmain.2.1⟩

/-- C8: `Edge.place_mol` draws its sign from the two-element sample space
`[1, -1]`; both draws are possible, the linker's axis is oriented along
`flip • direction`, and for any nonzero edge direction the two draws give
different placements — so the placement is not a function of the edge and
linker alone, and repeated builds agree only when the random source is
fixed. -/
theorem edge_place_mol_random_flip (c dvec : Vec3) (hne : dvec ≠ 0) :
    ((1 : ℝ) ∈ flipChoices ∧ (-1 : ℝ) ∈ flipChoices) ∧
    (∀ flip : ℝ,
      (edge_place_mol c dvec flip).orientation = flip • dvec ∧
      (edge_place_mol c dvec flip).heavy_centroid = c) ∧
    edge_place_mol c dvec 1 ≠ edge_place_mol c dvec (-1) := by
  refine ⟨⟨by simp [flipChoices], by simp [flipChoices]⟩,
    fun flip => ⟨rfl, rfl⟩, ?_⟩
  intro h
  apply hne
  have horient := congrArg LinkerPlacement.orientation h
  have hx := congrArg Vec3.x horient
  have hy := congrArg Vec3.y horient
  have hz := congrArg Vec3.z horient
  rw [show (edge_place_mol c dvec 1).orientation = (1 : ℝ) • dvec from rfl,
    show (edge_place_mol c dvec (-1)).orientation = (-1 : ℝ) • dvec from rfl]
    at hx hy hz
  rw [vec3_smul_x, vec3_smul_x] at hx
  rw [vec3_smul_y, vec3_smul_y] at hy
  rw [vec3_smul_z, vec3_smul_z] at hz
  refine vec3_ext ?_ ?_ ?_
  · rw [vec3_zero_x]
    nlinarith
  · rw [vec3_zero_y]
    nlinarith
  · rw [vec3_zero_z]
    nlinarith

/-- C8 witness: an edge whose direction is the x axis; the two admissible
random draws produce oppositely oriented placements. -/
theorem edge_place_mol_random_flip_witness :
    (⟨1, 0, 0⟩ : Vec3) ≠ 0 ∧
    edge_place_mol 0 ⟨1, 0, 0⟩ 1 ≠ edge_place_mol 0 ⟨1, 0, 0⟩ (-1) :=
  ⟨fun h => by
    have hx := congrArg Vec3.x h
    rw [vec3_zero_x] at hx
    norm_num at hx,
   (edge_place_mol_random_flip 0 ⟨1, 0, 0⟩ (fun h => by
      have hx := congrArg Vec3.x h
      rw [vec3_zero_x] at hx
      norm_num at hx)).2.2⟩

end StkSpec
